import Mathlib

/-!
Verification of the SPSC lock-free ring buffer from
`internal/queue` (type `RingBuffer`, constructor `NewRingBuffer`,
methods `Push`, `Pop`, `Len`, `Cap`) and of the unguarded comparison
ring `spscRing` from `internal/combined/lockfreering_bench_test.go`.

Modelling conventions:
* Go `uint64` values are natural numbers kept below `2 ^ 64`; every
  increment is taken modulo `2 ^ 64` and the wrapping subtraction
  `a - b` on `uint64` is `(a + (2 ^ 64 - b)) % 2 ^ 64`.
* The backing slice `buf []T` is a `List`; Go's zero value of `T` is
  `default` of an `Inhabited` instance.
* The SPSC guard (`pushActive.CompareAndSwap(0, 1)` followed by
  `defer pushActive.Store(0)`) is modelled by an `Except` result: a
  call entered while the flag is nonzero is the `panic` branch and
  yields `.error`; otherwise the call runs its body with the flag
  set and restored, so the returned state carries the entry flag.
* `make([]T, n)` panics when `n` exceeds the maximum `int`
  (`2 ^ 63 - 1`); the constructor returns `none` in that case.
  The argument `size` of `NewRingBuffer` is a Go `int`; the
  constructor is defined on its non-negative range (negative sizes
  make the rounding loop diverge, analysed via `loopSeq` below).
-/

/-- The modulus `2 ^ 64` of Go's `uint64` arithmetic. -/
def U64 : Nat := 2 ^ 64

/-- Maximum value of a 64-bit Go `int`. -/
def maxInt64 : Nat := 2 ^ 63 - 1

/-- Go `uint64` subtraction `a - b` for `a b < 2 ^ 64`. -/
def sub64 (a b : Nat) : Nat := (a + (U64 - b)) % U64

/-- Go conversion `int(u)` of a `uint64` value `u < 2 ^ 64` to a
64-bit signed integer (two's complement reinterpretation). -/
def toInt64 (u : Nat) : Int := if u < 2 ^ 63 then (u : Int) else (u : Int) - (U64 : Int)

/-- Go conversion `uint64(x)` of a 64-bit signed integer. -/
def uint64OfInt (x : Int) : Nat := (x % (U64 : Int)).toNat

/-- The value of the loop variable `n` of `NewRingBuffer`'s rounding
loop (`n := uint64(1); for n < uint64(size) { n <<= 1 }`) after `k`
iterations, for loop bound `u = uint64(size)`.  Once the condition
`n < u` fails the value stays fixed, so the loop terminates exactly
when some `k` has `u ≤ loopSeq u k`. -/
def loopSeq (u : Nat) : Nat → Nat
  | 0 => 1
  | k + 1 =>
    let n := loopSeq u k
    if n < u then (2 * n) % U64 else n

/-- Result of the rounding loop of `NewRingBuffer` on the
non-negative `int` range, where at most 63 doublings happen. -/
def nextPow2 (u : Nat) : Nat := loopSeq u 64

/-- The spec's `next_power_of_two`: the least power of two that is
greater than or equal to `c` (spec-side definition, for comparison
with the constructor's loop). -/
def next_power_of_two (c : Nat) : Nat := 2 ^ Nat.clog 2 c

/-- The two `panic` branches of the SPSC guard:
`"queue: concurrent Push on SPSC RingBuffer - only one producer allowed"`
and
`"queue: concurrent Pop on SPSC RingBuffer - only one consumer allowed"`. -/
inductive ContractViolation : Type
  | concurrentPush
  | concurrentPop
deriving DecidableEq

/-- The `RingBuffer[T]` struct of `internal/queue`: backing slice,
index mask, `head`/`tail` cursors and the two SPSC guard flags
(cache-line padding fields carry no state and are omitted). -/
structure RingBuffer (α : Type) where
  buf : List α
  mask : Nat
  head : Nat
  tail : Nat
  pushActive : Nat
  popActive : Nat
deriving DecidableEq

/-- Constructor `NewRingBuffer[T](size int)` for non-negative `size`: rounds the
size up with the doubling loop and allocates the zeroed backing
slice; `none` models the `make` panic when the rounded size does not
fit in `int`. -/
def NewRingBuffer (α : Type) [Inhabited α] (size : Nat) : Option (RingBuffer α) :=
  if size ≤ maxInt64 then
    let n := nextPow2 size
    if n ≤ maxInt64 then
      some { buf := List.replicate n default, mask := n - 1,
             head := 0, tail := 0, pushActive := 0, popActive := 0 }
    else none
  else none

/-- Method `func (r *RingBuffer[T]) Push(v T) bool`.  `.error` is the guard
panic; `.ok (b, r')` is a normal return `b` with post-state `r'`
(the claim flag is set on entry and restored by the deferred store,
so `r'` carries the entry value `0`). -/
def RingBuffer.Push [Inhabited α] (r : RingBuffer α) (v : α) : Except ContractViolation (Bool × RingBuffer α) :=
  if r.pushActive ≠ 0 then
    .error ContractViolation.concurrentPush
  else
    let head := r.head
    let tail := r.tail
    if r.buf.length ≤ sub64 head tail then
      .ok (false, r)
    else
      .ok (true, { r with buf := r.buf.set (head &&& r.mask) v, head := (head + 1) % U64 })

/-- Method `func (r *RingBuffer[T]) Pop() (T, bool)`. -/
def RingBuffer.Pop [Inhabited α] (r : RingBuffer α) : Except ContractViolation ((α × Bool) × RingBuffer α) :=
  if r.popActive ≠ 0 then
    .error ContractViolation.concurrentPop
  else
    let tail := r.tail
    let head := r.head
    if head ≤ tail then
      .ok ((default, false), r)
    else
      .ok ((r.buf.getD (tail &&& r.mask) default, true), { r with tail := (tail + 1) % U64 })

/-- Method `func (r *RingBuffer[T]) Len() int`: `int(head - tail)` with
`uint64` subtraction. -/
def RingBuffer.Len (r : RingBuffer α) : Int := toInt64 (sub64 r.head r.tail)

/-- Method `func (r *RingBuffer[T]) Cap() int`: `len(r.buf)`. -/
def RingBuffer.Cap (r : RingBuffer α) : Int := (r.buf.length : Int)

/-- One call in a sequential use of the buffer: `Push v` or `Pop`. -/
inductive Op (α : Type) : Type
  | push (v : α)
  | pop
deriving DecidableEq

/-- The observable return of one call: for `Push v` the value pushed
and the returned `Bool`; for `Pop` the returned value and `Bool`. -/
inductive OpRes (α : Type) : Type
  | pushR (v : α) (ok : Bool)
  | popR (v : α) (ok : Bool)
deriving DecidableEq

/-- Sequential driver for the guarded buffer: runs calls in order and
collects their results, stopping at a guard panic. -/
def runRB [Inhabited α] (r : RingBuffer α) : List (Op α) → Except ContractViolation (List (OpRes α) × RingBuffer α)
  | [] => .ok ([], r)
  | Op.push v :: ops =>
    match r.Push v with
    | .error e => .error e
    | .ok (b, r') =>
      match runRB r' ops with
      | .error e => .error e
      | .ok (res, r'') => .ok (OpRes.pushR v b :: res, r'')
  | Op.pop :: ops =>
    match r.Pop with
    | .error e => .error e
    | .ok ((v, b), r') =>
      match runRB r' ops with
      | .error e => .error e
      | .ok (res, r'') => .ok (OpRes.popR v b :: res, r'')

/-- Values of the successful `Push` calls of a run, in order. -/
def pushedOK (res : List (OpRes α)) : List α :=
  res.filterMap fun x =>
    match x with
    | OpRes.pushR v true => some v
    | _ => none

/-- Values of the successful `Pop` calls of a run, in order. -/
def poppedOK (res : List (OpRes α)) : List α :=
  res.filterMap fun x =>
    match x with
    | OpRes.popR v true => some v
    | _ => none

/-- The unguarded comparison ring `spscRing` of
`internal/combined/lockfreering_bench_test.go` (`buf []int`). -/
structure spscRing where
  buf : List Int
  mask : Nat
  head : Nat
  tail : Nat
deriving DecidableEq

/-- Constructor `newSPSCRing(size int)`: same rounding loop and allocation as
`NewRingBuffer`, without guard flags. -/
def newSPSCRing (size : Nat) : Option spscRing :=
  if size ≤ maxInt64 then
    let n := nextPow2 size
    if n ≤ maxInt64 then
      some { buf := List.replicate n 0, mask := n - 1, head := 0, tail := 0 }
    else none
  else none

/-- Method `func (r *spscRing) Push(v int) bool`. -/
def spscRing.Push (r : spscRing) (v : Int) : Bool × spscRing :=
  if r.buf.length ≤ sub64 r.head r.tail then
    (false, r)
  else
    (true, { r with buf := r.buf.set (r.head &&& r.mask) v, head := (r.head + 1) % U64 })

/-- Method `func (r *spscRing) Pop() (int, bool)`. -/
def spscRing.Pop (r : spscRing) : (Int × Bool) × spscRing :=
  if r.head ≤ r.tail then
    ((0, false), r)
  else
    ((r.buf.getD (r.tail &&& r.mask) 0, true), { r with tail := (r.tail + 1) % U64 })

/-- Sequential driver for the unguarded ring. -/
def runS (r : spscRing) : List (Op Int) → List (OpRes Int) × spscRing
  | [] => ([], r)
  | Op.push v :: ops =>
    let (b, r') := r.Push v
    let (res, r'') := runS r' ops
    (OpRes.pushR v b :: res, r'')
  | Op.pop :: ops =>
    let ((v, b), r') := r.Pop
    let (res, r'') := runS r' ops
    (OpRes.popR v b :: res, r'')

set_option maxRecDepth 4000

/-! ### Arithmetic helpers for the `uint64` cursor encoding -/

theorem sub64_mod_of_le {P Q : Nat} (hQP : Q ≤ P) (hPQ : P - Q < U64) :
    sub64 (P % U64) (Q % U64) = P - Q := by
  simp only [sub64, U64] at *
  omega

theorem toInt64_of_lt {u : Nat} (h : u < 2 ^ 63) : toInt64 u = (u : Int) := by
  rw [toInt64, if_pos h]

theorem mod_succ_64 (P : Nat) : (P % U64 + 1) % U64 = (P + 1) % U64 :=
  Nat.mod_add_mod P U64 1

/-- Indexing through the mask: for an `N = 2 ^ m` slot count with
`m ≤ 64`, the physical slot of a cursor value `P % 2 ^ 64` is
`P % N`. -/
theorem mask_index {P m : Nat} (hm : m ≤ 64) :
    (P % U64) &&& (2 ^ m - 1) = P % 2 ^ m := by
  rw [Nat.and_pow_two_sub_one_eq_mod, U64, Nat.mod_mod_of_dvd _ (Nat.pow_dvd_pow 2 hm)]

/-! ### The sequential-state invariant

`RBInv N m pushed popped s` relates the buffer state `s` to the ghost
history of the run: `pushed` is the list of values of all successful
`Push` calls so far and `popped` of all successful `Pop` calls.  The
cursors are the histories' lengths reduced mod `2 ^ 64`, `popped` is
the already-consumed front of `pushed`, and each still-queued value
`pushed[j]` sits in slot `j % N`. -/

structure RBInv [Inhabited α] (N m : Nat) (pushed popped : List α) (s : RingBuffer α) : Prop where
  hN : N = 2 ^ m
  hm : m ≤ 62
  hlen : s.buf.length = N
  hmask : s.mask = N - 1
  hpushA : s.pushActive = 0
  hpopA : s.popActive = 0
  hhead : s.head = pushed.length % U64
  htail : s.tail = popped.length % U64
  hle : popped.length ≤ pushed.length
  hcap : pushed.length ≤ popped.length + N
  htake : popped = pushed.take popped.length
  hcontent : ∀ j, popped.length ≤ j → j < pushed.length →
    s.buf.getD (j % N) default = pushed.getD j default

theorem RBInv.occupied_lt [Inhabited α] {N m : Nat} {pushed popped : List α}
    {s : RingBuffer α} (h : RBInv N m pushed popped s) :
    pushed.length - popped.length < U64 := by
  have h2 : (2 : Nat) ^ m < 2 ^ 64 :=
    Nat.pow_lt_pow_right (by norm_num) (by have := h.hm; omega)
  have h3 := h.hcap
  have h4 := h.hN
  simp only [U64] at *
  omega

theorem RBInv.sub64_cursors [Inhabited α] {N m : Nat} {pushed popped : List α}
    {s : RingBuffer α} (h : RBInv N m pushed popped s) :
    sub64 s.head s.tail = pushed.length - popped.length := by
  rw [h.hhead, h.htail, sub64_mod_of_le h.hle h.occupied_lt]

/-- Step lemma: `Push` on a state with a free slot returns `true` and extends the
pushed history. -/
theorem Push_ok [Inhabited α] {N m : Nat} {pushed popped : List α} {s : RingBuffer α}
    (h : RBInv N m pushed popped s) (hfree : pushed.length - popped.length < N) (v : α) :
    ∃ s', s.Push v = .ok (true, s') ∧ RBInv N m (pushed ++ [v]) popped s' := by
  have hNpos : 0 < N := h.hN ▸ Nat.two_pow_pos m
  have hcond : ¬ s.buf.length ≤ sub64 s.head s.tail := by
    rw [h.sub64_cursors, h.hlen]; omega
  have hflag : ¬ s.pushActive ≠ 0 := by rw [h.hpushA]; simp
  refine ⟨{ s with buf := s.buf.set (s.head &&& s.mask) v, head := (s.head + 1) % U64 }, ?_, ?_⟩
  · simp only [RingBuffer.Push, if_neg hflag, if_neg hcond]
  · have hidx : s.head &&& s.mask = pushed.length % N := by
      rw [h.hhead, h.hmask, h.hN, mask_index (by have := h.hm; omega)]
    refine ⟨h.hN, h.hm, ?_, h.hmask, h.hpushA, h.hpopA, ?_, h.htail, ?_, ?_, ?_, ?_⟩
    · simpa [List.length_set] using h.hlen
    · simp only [List.length_append, List.length_cons, List.length_nil]
      rw [h.hhead, mod_succ_64]
    · simp only [List.length_append, List.length_cons, List.length_nil]
      have := h.hle; omega
    · simp only [List.length_append, List.length_cons, List.length_nil]
      have := h.hcap; omega
    · rw [List.take_append_of_le_length h.hle]; exact h.htake
    · intro j hjl hjr
      simp only [List.length_append, List.length_cons, List.length_nil] at hjr
      simp only [List.getD_eq_getElem?_getD] at *
      rcases Nat.lt_or_ge j pushed.length with hj | hj
      · have hne : s.head &&& s.mask ≠ j % N := by
          rw [hidx]
          intro heq
          have hmodeq : Nat.ModEq N j pushed.length := heq.symm
          have hdvd : N ∣ pushed.length - j := (Nat.modEq_iff_dvd' (Nat.le_of_lt hj)).mp hmodeq
          have hpos : 0 < pushed.length - j := by omega
          have := Nat.le_of_dvd hpos hdvd
          omega
        rw [List.getElem?_set_ne hne, List.getElem?_append_left hj]
        simpa only [List.getD_eq_getElem?_getD] using h.hcontent j hjl hj
      · have hj' : j = pushed.length := by omega
        subst hj'
        rw [hidx, List.getElem?_set_self (by rw [h.hlen]; exact Nat.mod_lt _ hNpos),
          List.getElem?_concat_length]

/-- Step lemma: `Push` on a full state returns `false` and leaves the state
untouched. -/
theorem Push_full [Inhabited α] {N m : Nat} {pushed popped : List α} {s : RingBuffer α}
    (h : RBInv N m pushed popped s) (hfull : N ≤ pushed.length - popped.length) (v : α) :
    s.Push v = .ok (false, s) := by
  have hcond : s.buf.length ≤ sub64 s.head s.tail := by
    rw [h.sub64_cursors, h.hlen]; omega
  have hflag : ¬ s.pushActive ≠ 0 := by rw [h.hpushA]; simp
  simp only [RingBuffer.Push, if_neg hflag, if_pos hcond]

/-- Step lemma: `Pop` when the cursor comparison sees data returns the oldest
not-yet-popped value, `pushed[popped.length]`. -/
theorem Pop_ok [Inhabited α] {N m : Nat} {pushed popped : List α} {s : RingBuffer α}
    (h : RBInv N m pushed popped s)
    (hne : popped.length % U64 < pushed.length % U64) :
    ∃ s', s.Pop = .ok ((pushed.getD popped.length default, true), s') ∧
      RBInv N m pushed (popped ++ [pushed.getD popped.length default]) s' := by
  have hQP : popped.length < pushed.length := by
    rcases Nat.lt_or_ge popped.length pushed.length with hlt | hge
    · exact hlt
    · have : popped.length = pushed.length := le_antisymm (h.hle) hge
      rw [this] at hne; omega
  have hcond : ¬ s.head ≤ s.tail := by
    rw [h.hhead, h.htail]; omega
  have hflag : ¬ s.popActive ≠ 0 := by rw [h.hpopA]; simp
  have hval : s.buf.getD (s.tail &&& s.mask) default = pushed.getD popped.length default := by
    rw [h.htail, h.hmask, h.hN, mask_index (by have := h.hm; omega), ← h.hN]
    exact h.hcontent popped.length le_rfl hQP
  refine ⟨{ s with tail := (s.tail + 1) % U64 }, ?_, ?_⟩
  · simp only [RingBuffer.Pop, if_neg hflag, if_neg hcond, hval]
  · refine ⟨h.hN, h.hm, h.hlen, h.hmask, h.hpushA, h.hpopA, h.hhead, ?_, ?_, ?_, ?_, ?_⟩
    · simp only [List.length_append, List.length_cons, List.length_nil]
      rw [h.htail, mod_succ_64]
    · simp only [List.length_append, List.length_cons, List.length_nil]
      omega
    · simp only [List.length_append, List.length_cons, List.length_nil]
      have := h.hcap; omega
    · simp only [List.length_append, List.length_cons, List.length_nil]
      rw [List.take_succ, ← h.htake]
      congr 1
      rw [List.getD_eq_getElem?_getD, List.getElem?_eq_getElem hQP]
      simp
    · intro j hjl hjr
      simp only [List.length_append, List.length_cons, List.length_nil] at hjl
      exact h.hcontent j (by omega) hjr

/-- Step lemma: `Pop` when the cursor comparison sees no data returns the zero
value and `false`, leaving the state untouched. -/
theorem Pop_empty [Inhabited α] {N m : Nat} {pushed popped : List α} {s : RingBuffer α}
    (h : RBInv N m pushed popped s)
    (hemp : pushed.length % U64 ≤ popped.length % U64) :
    s.Pop = .ok ((default, false), s) := by
  have hcond : s.head ≤ s.tail := by rw [h.hhead, h.htail]; omega
  have hflag : ¬ s.popActive ≠ 0 := by rw [h.hpopA]; simp
  simp only [RingBuffer.Pop, if_neg hflag, if_pos hcond]

/-- Field-wise correspondence between a guarded buffer (with both
claim flags clear) and the unguarded comparison ring. -/
def RelRS (s : RingBuffer Int) (r : spscRing) : Prop :=
  s.buf = r.buf ∧ s.mask = r.mask ∧ s.head = r.head ∧ s.tail = r.tail ∧
  s.pushActive = 0 ∧ s.popActive = 0

/-- A workload of `k` repetitions of `Push 0` then `Pop`, the drain-as-you-fill
workload used to analyse cursor wraparound. -/
def pumpOps (k : Nat) : List (Op Nat) :=
  (List.replicate k [Op.push 0, Op.pop]).flatten

/-- Expected results of `pumpOps k` on a buffer that starts empty:
every call succeeds. -/
def pumpRes (k : Nat) : List (OpRes Nat) :=
  (List.replicate k [OpRes.pushR 0 true, OpRes.popR 0 true]).flatten

/-! ### Running whole call sequences -/

theorem pushedOK_pushR (v : α) (b : Bool) (res : List (OpRes α)) :
    pushedOK (OpRes.pushR v b :: res) = if b then v :: pushedOK res else pushedOK res := by
  cases b <;> simp [pushedOK]

theorem pushedOK_popR (v : α) (b : Bool) (res : List (OpRes α)) :
    pushedOK (OpRes.popR v b :: res) = pushedOK res := by
  cases b <;> simp [pushedOK]

theorem poppedOK_pushR (v : α) (b : Bool) (res : List (OpRes α)) :
    poppedOK (OpRes.pushR v b :: res) = poppedOK res := by
  cases b <;> simp [poppedOK]

theorem poppedOK_popR (v : α) (b : Bool) (res : List (OpRes α)) :
    poppedOK (OpRes.popR v b :: res) = if b then v :: poppedOK res else poppedOK res := by
  cases b <;> simp [poppedOK]

/-- Any sequence of calls run from an invariant state succeeds (no
guard panic) and re-establishes the invariant, with the histories
extended by exactly the successful calls of the run. -/
theorem runRB_inv [Inhabited α] {N m : Nat} :
    ∀ (ops : List (Op α)) (pushed popped : List α) (s : RingBuffer α),
      RBInv N m pushed popped s →
      ∃ res s', runRB s ops = .ok (res, s') ∧
        RBInv N m (pushed ++ pushedOK res) (popped ++ poppedOK res) s'
  | [], pushed, popped, s, h => by
    refine ⟨[], s, rfl, ?_⟩
    simpa [pushedOK, poppedOK] using h
  | Op.push v :: ops, pushed, popped, s, h => by
    rcases Nat.lt_or_ge (pushed.length - popped.length) N with hfree | hfull
    · obtain ⟨s₁, hPush, h₁⟩ := Push_ok h hfree v
      obtain ⟨res, s', hrun, h'⟩ := runRB_inv ops (pushed ++ [v]) popped s₁ h₁
      refine ⟨OpRes.pushR v true :: res, s', ?_, ?_⟩
      · simp only [runRB, hPush, hrun]
      · rw [pushedOK_pushR, poppedOK_pushR]
        simpa [List.append_assoc] using h'
    · have hPush := Push_full h hfull v
      obtain ⟨res, s', hrun, h'⟩ := runRB_inv ops pushed popped s h
      refine ⟨OpRes.pushR v false :: res, s', ?_, ?_⟩
      · simp only [runRB, hPush, hrun]
      · rw [pushedOK_pushR, poppedOK_pushR]
        simpa using h'
  | Op.pop :: ops, pushed, popped, s, h => by
    rcases Nat.lt_or_ge (popped.length % U64) (pushed.length % U64) with hne | hemp
    · obtain ⟨s₁, hPop, h₁⟩ := Pop_ok h hne
      obtain ⟨res, s', hrun, h'⟩ :=
        runRB_inv ops pushed (popped ++ [pushed.getD popped.length default]) s₁ h₁
      refine ⟨OpRes.popR (pushed.getD popped.length default) true :: res, s', ?_, ?_⟩
      · simp only [runRB, hPop, hrun]
      · rw [pushedOK_popR, poppedOK_popR]
        simpa [List.append_assoc] using h'
    · have hPop := Pop_empty h (by omega)
      obtain ⟨res, s', hrun, h'⟩ := runRB_inv ops pushed popped s h
      refine ⟨OpRes.popR default false :: res, s', ?_, ?_⟩
      · simp only [runRB, hPop, hrun]
      · rw [pushedOK_popR, poppedOK_popR]
        simpa using h'

/-! ### The constructor's rounding loop -/

theorem loopSeq_succ (u k : Nat) :
    loopSeq u (k + 1) = if loopSeq u k < u then (2 * loopSeq u k) % U64 else loopSeq u k := rfl

theorem loopSeq_eq_pow {u : Nat} (hu : u ≤ 2 ^ 63) :
    ∀ k, k ≤ Nat.clog 2 u → loopSeq u k = 2 ^ k := by
  have hclog : Nat.clog 2 u ≤ 63 := by
    have h1 : Nat.clog 2 u ≤ Nat.clog 2 (2 ^ 63) := Nat.clog_mono_right 2 hu
    rwa [Nat.clog_pow 2 63 (by norm_num)] at h1
  intro k hk
  induction k with
  | zero => rfl
  | succ k ih =>
    have hku : (2 : Nat) ^ k < u := (Nat.pow_lt_iff_lt_clog (by norm_num)).mpr (by omega)
    rw [loopSeq_succ, ih (by omega), if_pos hku]
    have hpow : 2 * 2 ^ k = 2 ^ (k + 1) := by ring
    rw [hpow, Nat.mod_eq_of_lt]
    show (2 : Nat) ^ (k + 1) < 2 ^ 64
    exact Nat.pow_lt_pow_right (by norm_num) (by omega)

theorem loopSeq_fix {u : Nat} {k : Nat} (h : u ≤ loopSeq u k) :
    ∀ j, k ≤ j → loopSeq u j = loopSeq u k := by
  intro j hj
  obtain ⟨d, rfl⟩ := Nat.exists_eq_add_of_le hj
  induction d with
  | zero => rfl
  | succ d ih =>
    rw [← Nat.add_assoc, loopSeq_succ, ih (by omega), if_neg (by omega)]

theorem nextPow2_eq {u : Nat} (hu : u ≤ 2 ^ 63) :
    nextPow2 u = 2 ^ Nat.clog 2 u := by
  have hclog : Nat.clog 2 u ≤ 63 := by
    have h1 : Nat.clog 2 u ≤ Nat.clog 2 (2 ^ 63) := Nat.clog_mono_right 2 hu
    rwa [Nat.clog_pow 2 63 (by norm_num)] at h1
  have hfixv : loopSeq u (Nat.clog 2 u) = 2 ^ Nat.clog 2 u := loopSeq_eq_pow hu _ le_rfl
  have hle : u ≤ loopSeq u (Nat.clog 2 u) := by
    rw [hfixv]; exact Nat.le_pow_clog (by norm_num) u
  rw [nextPow2, loopSeq_fix hle 64 (by omega), hfixv]

/-- A freshly constructed buffer satisfies the invariant with empty
histories. -/
theorem RBInv_fresh [Inhabited α] {c : Nat} {rb : RingBuffer α}
    (h : NewRingBuffer α c = some rb) :
    ∃ m, rb.buf.length = 2 ^ m ∧ RBInv (2 ^ m) m [] [] rb := by
  simp only [NewRingBuffer] at h
  split at h
  case isFalse => exact absurd h (by simp)
  case isTrue hc =>
    split at h
    case isFalse => exact absurd h (by simp)
    case isTrue hn =>
      have heq : nextPow2 c = 2 ^ Nat.clog 2 c :=
        nextPow2_eq (by simp only [maxInt64] at hc; omega)
      refine ⟨Nat.clog 2 c, ?_, ?_⟩
      · rw [← Option.some_inj.mp h]
        simp [heq]
      · have hm : Nat.clog 2 c ≤ 62 := by
          rw [heq] at hn
          simp only [maxInt64] at hn
          have : (2 : Nat) ^ Nat.clog 2 c < 2 ^ 63 := by omega
          have := (Nat.pow_lt_pow_iff_right (a := 2) (by norm_num)).mp this
          omega
        rw [← Option.some_inj.mp h]
        exact ⟨rfl, hm, by simp [heq], by simp [heq], rfl, rfl, rfl, rfl,
          Nat.le_refl _, Nat.zero_le _, rfl, by intro j h1 h2; simp at h2⟩

/-! ### Claim theorems -/

/-- C3: `Push` on a full buffer (`head - tail >= len(buf)` in `uint64`
arithmetic at entry, with the push claim flag clear) returns `false`
and leaves the entire state — `head`, `tail`, every storage slot and
both claim flags — unchanged; no partial write occurs and the claim
flag is released (the returned state is exactly the entry state). -/
theorem claim_C3_push_full_noop [Inhabited α] (s : RingBuffer α) (v : α)
    (hflag : s.pushActive = 0) (hfull : s.buf.length ≤ sub64 s.head s.tail) :
    s.Push v = .ok (false, s) := by
  have hf : ¬ s.pushActive ≠ 0 := by rw [hflag]; simp
  simp only [RingBuffer.Push, if_neg hf, if_pos hfull]

theorem claim_C3_witness :
    RingBuffer.Push { buf := [42], mask := 0, head := 1, tail := 0, pushActive := 0, popActive := 0 } (9 : Nat) = .ok (false, { buf := [42], mask := 0, head := 1, tail := 0, pushActive := 0, popActive := 0 }) :=
  claim_C3_push_full_noop _ 9 rfl (by decide)

/-- C4: `Pop` on an empty buffer (`tail >= head` at entry, with the pop
claim flag clear) — in particular on a freshly constructed buffer —
returns the zero value of `T` paired with `false` and leaves the
entire state unchanged; the claim flag is released (the returned
state is exactly the entry state). -/
theorem claim_C4_pop_empty_noop [Inhabited α] (s : RingBuffer α)
    (hflag : s.popActive = 0) (hempty : s.head ≤ s.tail) :
    s.Pop = .ok ((default, false), s) := by
  have hf : ¬ s.popActive ≠ 0 := by rw [hflag]; simp
  simp only [RingBuffer.Pop, if_neg hf, if_pos hempty]

theorem claim_C4_witness :
    RingBuffer.Pop { buf := [0, 0], mask := 1, head := 0, tail := 0, pushActive := 0, popActive := 0 } = .ok (((0 : Nat), false), { buf := [0, 0], mask := 1, head := 0, tail := 0, pushActive := 0, popActive := 0 }) :=
  claim_C4_pop_empty_noop _ rfl (by decide)

/-- C8: in sequential use, a `Push` or `Pop` call that begins with its
claim flag equal to `0` never takes the panic branch (the result is
`.ok`, never `.error`), and the returned state has both claim flags
equal to `0` again, on the early-return and on the success path
alike. -/
theorem claim_C8_guard_sequential [Inhabited α] (s : RingBuffer α) (v : α)
    (hpush : s.pushActive = 0) (hpop : s.popActive = 0) :
    (∃ b s', s.Push v = .ok (b, s') ∧ s'.pushActive = 0 ∧ s'.popActive = 0) ∧
    (∃ out s', s.Pop = .ok (out, s') ∧ s'.pushActive = 0 ∧ s'.popActive = 0) := by
  have hf : ¬ s.pushActive ≠ 0 := by rw [hpush]; simp
  have hg : ¬ s.popActive ≠ 0 := by rw [hpop]; simp
  constructor
  · by_cases hc : s.buf.length ≤ sub64 s.head s.tail
    · exact ⟨false, s, by simp only [RingBuffer.Push, if_neg hf, if_pos hc], hpush, hpop⟩
    · exact ⟨true, { s with buf := s.buf.set (s.head &&& s.mask) v, head := (s.head + 1) % U64 }, by simp only [RingBuffer.Push, if_neg hf, if_neg hc], hpush, hpop⟩
  · by_cases hc : s.head ≤ s.tail
    · exact ⟨(default, false), s, by simp only [RingBuffer.Pop, if_neg hg, if_pos hc], hpush, hpop⟩
    · exact ⟨(s.buf.getD (s.tail &&& s.mask) default, true), { s with tail := (s.tail + 1) % U64 }, by simp only [RingBuffer.Pop, if_neg hg, if_neg hc], hpush, hpop⟩

theorem claim_C8_witness :
    (∃ b s', RingBuffer.Push { buf := [0, 0], mask := 1, head := 0, tail := 0, pushActive := 0, popActive := 0 } (3 : Nat) = .ok (b, s') ∧ s'.pushActive = 0 ∧ s'.popActive = 0) ∧
    (∃ out s', RingBuffer.Pop { buf := ([0, 0] : List Nat), mask := 1, head := 0, tail := 0, pushActive := 0, popActive := 0 } = .ok (out, s') ∧ s'.pushActive = 0 ∧ s'.popActive = 0) :=
  claim_C8_guard_sequential _ 3 rfl rfl

/-- C1 (FIFO order): for any sequence of calls run sequentially on a
freshly constructed buffer, the values returned by the successful
`Pop` calls are exactly the first values of the successful `Push`
calls, in push order — each successful `Pop` returns the oldest
not-yet-popped value (the slot at `tail & mask`), with no reordering
and no duplication. -/
theorem claim_C1_fifo_order [Inhabited α] {c : Nat} {q : RingBuffer α}
    (ops : List (Op α)) {res : List (OpRes α)} {s' : RingBuffer α}
    (hnew : NewRingBuffer α c = some q) (hrun : runRB q ops = .ok (res, s')) :
    poppedOK res = (pushedOK res).take (poppedOK res).length := by
  obtain ⟨m, hlen, hinv⟩ := RBInv_fresh hnew
  obtain ⟨res₀, s₀, hrun₀, hinv'⟩ := runRB_inv ops [] [] q hinv
  rw [hrun₀] at hrun
  simp only [Except.ok.injEq, Prod.mk.injEq] at hrun
  obtain ⟨hres, hs⟩ := hrun
  subst hres
  have := hinv'.htake
  simpa using this

theorem claim_C1_witness :
    poppedOK [OpRes.pushR (1 : Nat) true, OpRes.pushR 2 true, OpRes.popR 1 true] = (pushedOK [OpRes.pushR (1 : Nat) true, OpRes.pushR 2 true, OpRes.popR 1 true]).take (poppedOK [OpRes.pushR (1 : Nat) true, OpRes.pushR 2 true, OpRes.popR 1 true]).length :=
  claim_C1_fifo_order (c := 2) (q := { buf := [0, 0], mask := 1, head := 0, tail := 0, pushActive := 0, popActive := 0 }) [Op.push 1, Op.push 2, Op.pop] rfl rfl

/-- Pushing a batch of values that fits in the remaining capacity:
every `Push` returns `true`. -/
theorem runRB_pushes [Inhabited α] {N m : Nat} :
    ∀ (vs pushed popped : List α) (s : RingBuffer α),
      RBInv N m pushed popped s →
      pushed.length - popped.length + vs.length ≤ N →
      ∃ s', runRB s (vs.map Op.push) = .ok (vs.map (fun v => OpRes.pushR v true), s') ∧
        RBInv N m (pushed ++ vs) popped s'
  | [], pushed, popped, s, h, _ => ⟨s, rfl, by simpa using h⟩
  | v :: vs, pushed, popped, s, h, hcap => by
    have hle := h.hle
    simp only [List.length_cons] at hcap
    obtain ⟨s₁, hPush, h₁⟩ := Push_ok h (by omega) v
    obtain ⟨s', hrun, h'⟩ := runRB_pushes vs (pushed ++ [v]) popped s₁ h₁
      (by simp only [List.length_append, List.length_cons, List.length_nil]; omega)
    refine ⟨s', ?_, ?_⟩
    · simp only [List.map_cons, runRB, hPush, hrun]
    · simpa [List.append_assoc] using h'

/-- C2 (capacity bound): on a freshly constructed buffer, pushing
`Cap()` values succeeds call by call; the next `Push` returns `false`
and leaves the state unchanged (so repeated pushes keep failing);
after one successful `Pop` (which frees a slot) the next `Push`
returns `true` again. -/
theorem claim_C2_capacity_bound [Inhabited α] {c : Nat} {q : RingBuffer α}
    (vs : List α) (w : α) (hnew : NewRingBuffer α c = some q)
    (hlen : vs.length = q.buf.length) :
    ∃ s₁ s₂ s₃,
      runRB q (vs.map Op.push) = .ok (vs.map (fun v => OpRes.pushR v true), s₁) ∧
      s₁.Push w = .ok (false, s₁) ∧
      s₁.Pop = .ok ((vs.getD 0 default, true), s₂) ∧
      s₂.Push w = .ok (true, s₃) := by
  obtain ⟨m, hblen, hinv⟩ := RBInv_fresh hnew
  have hvs : vs.length = 2 ^ m := by rw [hlen, hblen]
  have hm := hinv.hm
  have hpos : (0 : Nat) < 2 ^ m := Nat.two_pow_pos m
  obtain ⟨s₁, hrun, h₁⟩ := runRB_pushes vs [] [] q hinv (by simp [hvs])
  rw [List.nil_append] at h₁
  have hfull : (2 : Nat) ^ m ≤ vs.length - List.length ([] : List α) := by
    simp [hvs]
  have hPushFail := Push_full h₁ hfull w
  have hne : List.length ([] : List α) % U64 < vs.length % U64 := by
    have h2 : (2 : Nat) ^ m < 2 ^ 64 := Nat.pow_lt_pow_right (by norm_num) (by omega)
    simp only [List.length_nil, Nat.zero_mod, hvs, U64]
    rw [Nat.mod_eq_of_lt h2]
    omega
  obtain ⟨s₂, hPop, h₂⟩ := Pop_ok h₁ hne
  rw [List.nil_append] at h₂
  have hfree : vs.length - List.length [vs.getD (List.length ([] : List α)) default] < 2 ^ m := by
    simp only [List.length_cons, List.length_nil, hvs]
    omega
  obtain ⟨s₃, hPushOk, _⟩ := Push_ok h₂ hfree w
  exact ⟨s₁, s₂, s₃, hrun, hPushFail, by simpa using hPop, hPushOk⟩

theorem claim_C2_witness :
    ∃ s₁ s₂ s₃,
      runRB { buf := [0, 0], mask := 1, head := 0, tail := 0, pushActive := 0, popActive := 0 } (([10, 20] : List Nat).map Op.push) = .ok (([10, 20] : List Nat).map (fun v => OpRes.pushR v true), s₁) ∧
      RingBuffer.Push s₁ 7 = .ok (false, s₁) ∧
      RingBuffer.Pop s₁ = .ok ((([10, 20] : List Nat).getD 0 default, true), s₂) ∧
      RingBuffer.Push s₂ 7 = .ok (true, s₃) :=
  claim_C2_capacity_bound (c := 2) (q := { buf := [0, 0], mask := 1, head := 0, tail := 0, pushActive := 0, popActive := 0 }) [10, 20] 7 rfl rfl

/-- C6 (amended): for every run on a freshly constructed buffer, as
long as fewer than `2 ^ 64` `Push` calls have succeeded the cursors
satisfy `tail ≤ head`; the occupied slot count `head - tail`
(computed in `uint64` arithmetic) is at most `N = len(buf)`
unconditionally, and `Len()` is always in `[0, Cap()]`.  (The raw
comparison `tail ≤ head` genuinely breaks at the `2 ^ 64`-th
successful push, when `head` wraps — see the counterexample.) -/
theorem claim_C6_cursor_invariants [Inhabited α] {c : Nat} {q : RingBuffer α}
    (ops : List (Op α)) {res : List (OpRes α)} {s' : RingBuffer α}
    (hnew : NewRingBuffer α c = some q) (hrun : runRB q ops = .ok (res, s')) :
    ((pushedOK res).length < U64 → s'.tail ≤ s'.head) ∧
    sub64 s'.head s'.tail ≤ q.buf.length ∧
    0 ≤ s'.Len ∧ s'.Len ≤ s'.Cap := by
  obtain ⟨m, hblen, hinv⟩ := RBInv_fresh hnew
  obtain ⟨res₀, s₀, hrun₀, hinv'⟩ := runRB_inv ops [] [] q hinv
  rw [hrun₀] at hrun
  simp only [Except.ok.injEq, Prod.mk.injEq] at hrun
  obtain ⟨hres, hs⟩ := hrun
  subst hres
  subst hs
  rw [List.nil_append, List.nil_append] at hinv'
  have hocc : (pushedOK res₀).length - (poppedOK res₀).length ≤ 2 ^ m := by
    have := hinv'.hcap
    omega
  have hsmall : (pushedOK res₀).length - (poppedOK res₀).length < 2 ^ 63 := by
    have h62 : (2 : Nat) ^ m ≤ 2 ^ 62 := Nat.pow_le_pow_right (by norm_num) hinv'.hm
    have : (2 : Nat) ^ 62 < 2 ^ 63 := by norm_num
    omega
  refine ⟨?_, ?_, ?_, ?_⟩
  · intro hP
    have hQ : (poppedOK res₀).length ≤ (pushedOK res₀).length := hinv'.hle
    rw [hinv'.hhead, hinv'.htail, Nat.mod_eq_of_lt hP, Nat.mod_eq_of_lt (by omega)]
    exact hQ
  · rw [hinv'.sub64_cursors, hblen]
    have := hinv'.hcap
    omega
  · rw [RingBuffer.Len, hinv'.sub64_cursors, toInt64_of_lt hsmall]
    exact Int.ofNat_nonneg _
  · rw [RingBuffer.Len, hinv'.sub64_cursors, toInt64_of_lt hsmall, RingBuffer.Cap, hinv'.hlen]
    exact Int.ofNat_le.mpr hocc

theorem claim_C6_witness :
    ((pushedOK [OpRes.pushR (5 : Nat) true, OpRes.popR 5 true]).length < U64 →
      RingBuffer.tail { buf := ([0, 0] : List Nat), mask := 1, head := 1, tail := 1, pushActive := 0, popActive := 0 } ≤ RingBuffer.head { buf := ([0, 0] : List Nat), mask := 1, head := 1, tail := 1, pushActive := 0, popActive := 0 }) ∧
    sub64 1 1 ≤ List.length ([0, 0] : List Nat) ∧
    0 ≤ RingBuffer.Len { buf := ([0, 0] : List Nat), mask := 1, head := 1, tail := 1, pushActive := 0, popActive := 0 } ∧
    RingBuffer.Len { buf := ([0, 0] : List Nat), mask := 1, head := 1, tail := 1, pushActive := 0, popActive := 0 } ≤ RingBuffer.Cap { buf := ([0, 0] : List Nat), mask := 1, head := 1, tail := 1, pushActive := 0, popActive := 0 } := by
  have h := claim_C6_cursor_invariants (c := 2)
    (q := { buf := [0, 0], mask := 1, head := 0, tail := 0, pushActive := 0, popActive := 0 })
    [Op.push (5 : Nat), Op.pop] rfl rfl
  exact h

theorem sub64_self {j : Nat} (h : j ≤ U64) : sub64 j j = 0 := by
  simp only [sub64, U64] at *
  omega

theorem set_replicate_self : ∀ (n i : Nat), (List.replicate n (0 : Nat)).set i 0 = List.replicate n 0
  | 0, _ => rfl
  | n + 1, 0 => by simp [List.replicate_succ]
  | n + 1, i + 1 => by simp [List.replicate_succ, set_replicate_self n i]

theorem getD_replicate_lt {n i : Nat} (d : Nat) (h : i < n) :
    (List.replicate n (0 : Nat)).getD i d = 0 := by
  rw [List.getD_eq_getElem?_getD, List.getElem?_replicate, if_pos h]
  rfl

/-- Runs compose: a run of `as ++ bs` is the run of `as` continued by
the run of `bs` (stated for panic-free prefixes). -/
theorem runRB_append [Inhabited α] :
    ∀ (as : List (Op α)) (bs : List (Op α)) (s : RingBuffer α) (res : List (OpRes α)) (s' : RingBuffer α),
      runRB s as = .ok (res, s') →
      runRB s (as ++ bs) =
        match runRB s' bs with
        | .error e => .error e
        | .ok (res2, s'') => .ok (res ++ res2, s'')
  | [], bs, s, res, s', h => by
    simp only [runRB, Except.ok.injEq, Prod.mk.injEq] at h
    obtain ⟨h1, h2⟩ := h
    subst h1; subst h2
    simp only [List.nil_append]
    cases hb : runRB s bs with
    | error e => rfl
    | ok p => rfl
  | Op.push v :: as, bs, s, res, s', h => by
    simp only [runRB] at h ⊢
    cases hp : s.Push v with
    | error e => rw [hp] at h; exact absurd h (by simp)
    | ok p =>
      obtain ⟨b, r₁⟩ := p
      rw [hp] at h
      dsimp only at h ⊢
      cases hr : runRB r₁ as with
      | error e => rw [hr] at h; exact absurd h (by simp)
      | ok q =>
        obtain ⟨res₁, s₁⟩ := q
        rw [hr] at h
        simp only [Except.ok.injEq, Prod.mk.injEq] at h
        obtain ⟨h1, h2⟩ := h
        subst h1; subst h2
        simp only [List.append_eq]
        rw [runRB_append as bs r₁ res₁ s₁ hr]
        cases hb : runRB s₁ bs with
        | error e => rfl
        | ok p2 => rfl
  | Op.pop :: as, bs, s, res, s', h => by
    simp only [runRB] at h ⊢
    cases hp : s.Pop with
    | error e => rw [hp] at h; exact absurd h (by simp)
    | ok p =>
      obtain ⟨⟨v, b⟩, r₁⟩ := p
      rw [hp] at h
      dsimp only at h ⊢
      cases hr : runRB r₁ as with
      | error e => rw [hr] at h; exact absurd h (by simp)
      | ok q =>
        obtain ⟨res₁, s₁⟩ := q
        rw [hr] at h
        simp only [Except.ok.injEq, Prod.mk.injEq] at h
        obtain ⟨h1, h2⟩ := h
        subst h1; subst h2
        simp only [List.append_eq]
        rw [runRB_append as bs r₁ res₁ s₁ hr]
        cases hb : runRB s₁ bs with
        | error e => rfl
        | ok p2 => rfl

/-- Closed form of the drain-as-you-fill workload on a capacity-4
buffer: starting from `head = tail = j`, each push/pop pair succeeds
and advances both cursors by one, as long as no increment reaches
`2 ^ 64`. -/
theorem runRB_pump :
    ∀ (k j : Nat), j + k < U64 →
      runRB { buf := List.replicate 4 0, mask := 3, head := j, tail := j, pushActive := 0, popActive := 0 } (pumpOps k) =
        .ok (pumpRes k, { buf := List.replicate 4 0, mask := 3, head := j + k, tail := j + k, pushActive := 0, popActive := 0 })
  | 0, j, h => by simp [pumpOps, pumpRes, runRB]
  | k + 1, j, h => by
    have hj1 : j + 1 < U64 := by omega
    have hops : pumpOps (k + 1) = Op.push 0 :: Op.pop :: pumpOps k := by
      simp [pumpOps, List.replicate_succ]
    have hres : pumpRes (k + 1) = OpRes.pushR 0 true :: OpRes.popR 0 true :: pumpRes k := by
      simp [pumpRes, List.replicate_succ]
    have hPush : RingBuffer.Push { buf := List.replicate 4 0, mask := 3, head := j, tail := j, pushActive := 0, popActive := 0 } (0 : Nat) = .ok (true, { buf := List.replicate 4 0, mask := 3, head := j + 1, tail := j, pushActive := 0, popActive := 0 }) := by
      have hz : sub64 j j = 0 := sub64_self (by omega)
      have hc : ¬ (List.replicate 4 (0 : Nat)).length ≤ sub64 j j := by
        rw [hz]; simp
      simp only [RingBuffer.Push, if_neg hc]
      rw [set_replicate_self, Nat.mod_eq_of_lt hj1]
      simp
    have hPop : RingBuffer.Pop { buf := List.replicate 4 0, mask := 3, head := j + 1, tail := j, pushActive := 0, popActive := 0 } = .ok (((0 : Nat), true), { buf := List.replicate 4 0, mask := 3, head := j + 1, tail := j + 1, pushActive := 0, popActive := 0 }) := by
      have hc : ¬ (j + 1 : Nat) ≤ j := by omega
      have hidx : j &&& 3 < 4 := by
        have := Nat.and_le_right (n := j) (m := 3)
        omega
      simp only [RingBuffer.Pop, if_neg hc]
      rw [getD_replicate_lt _ hidx, Nat.mod_eq_of_lt hj1]
      simp
    have hrest := runRB_pump k (j + 1) (by omega)
    rw [hops, hres]
    simp only [runRB, hPush, hPop, hrest]
    have hadd : j + 1 + k = j + (k + 1) := by omega
    rw [hadd]

/-- C6 counterexample: run `2 ^ 64 - 1` successful push/pop pairs and
then one more successful `Push` on a freshly constructed capacity-4
buffer.  The final push is the `2 ^ 64`-th successful push: `head`
wraps around to `0` while `tail = 2 ^ 64 - 1`, so the claimed
invariant `tail ≤ head` is false in the resulting state. -/
theorem claim_C6_counterexample :
    ((runRB { buf := List.replicate 4 0, mask := 3, head := 0, tail := 0, pushActive := 0, popActive := 0 } (pumpOps (U64 - 1) ++ [Op.push 0])).toOption.map fun p => decide (p.2.tail ≤ p.2.head)) = some false := by
  have hpump := runRB_pump (U64 - 1) 0 (by simp only [U64]; omega)
  rw [Nat.zero_add] at hpump
  rw [runRB_append (pumpOps (U64 - 1)) [Op.push 0] _ _ _ hpump]
  rfl

/-- C7 (amended): for every value `x` and every state in which the
buffer is empty (`head = tail`, as on a fresh buffer or after all
pushed values were popped), provided fewer than `2 ^ 64 - 1` pushes
have happened (`head + 1 < 2 ^ 64`) and the state is well-formed
(flags clear, `mask < len(buf)`), `Push x` succeeds, the following
`Pop` returns exactly `x`, and afterwards `Len() = 0`.  On a
non-empty buffer `Pop` returns the oldest queued value instead of
`x` — see the counterexample. -/
theorem claim_C7_roundtrip [Inhabited α] (s : RingBuffer α) (x : α)
    (hpush : s.pushActive = 0) (hpop : s.popActive = 0)
    (hmask : s.mask < s.buf.length) (hempty : s.head = s.tail) (hbound : s.head + 1 < U64) :
    ∃ s₁ s₂, s.Push x = .ok (true, s₁) ∧ s₁.Pop = .ok ((x, true), s₂) ∧ s₂.Len = 0 := by
  have hf : ¬ s.pushActive ≠ 0 := by rw [hpush]; simp
  have hg : ¬ s.popActive ≠ 0 := by rw [hpop]; simp
  have hz : sub64 s.head s.tail = 0 := by rw [← hempty]; exact sub64_self (by omega)
  have hc : ¬ s.buf.length ≤ sub64 s.head s.tail := by rw [hz]; omega
  refine ⟨{ s with buf := s.buf.set (s.head &&& s.mask) x, head := (s.head + 1) % U64 }, { s with buf := s.buf.set (s.head &&& s.mask) x, head := (s.head + 1) % U64, tail := (s.tail + 1) % U64 }, ?_, ?_, ?_⟩
  · simp only [RingBuffer.Push, if_neg hf, if_neg hc]
  · have hc2 : ¬ (s.head + 1) % U64 ≤ s.tail := by
      rw [Nat.mod_eq_of_lt hbound, ← hempty]
      omega
    have hidx : s.head &&& s.mask < s.buf.length :=
      lt_of_le_of_lt Nat.and_le_right hmask
    have hval : (s.buf.set (s.head &&& s.mask) x).getD (s.tail &&& s.mask) default = x := by
      rw [← hempty, List.getD_eq_getElem?_getD, List.getElem?_set_self hidx]
      rfl
    simp only [RingBuffer.Pop, if_neg hg, if_neg hc2, hval]
  · show toInt64 (sub64 ((s.head + 1) % U64) ((s.tail + 1) % U64)) = 0
    rw [← hempty, sub64_self (Nat.le_of_lt (Nat.mod_lt _ (by rw [U64]; norm_num)))]
    rfl

/-- C7 counterexample: on a reachable state that is not empty (a
fresh capacity-2 buffer after `Push 7`), `Push 5` followed by `Pop`
yields `7`, not the just-pushed `5`, and `Len()` is `1` afterwards,
not `0` — the claim fails for states with queued values. -/
theorem claim_C7_counterexample :
    runRB { buf := [0, 0], mask := 1, head := 0, tail := 0, pushActive := 0, popActive := 0 } [Op.push (7 : Nat), Op.push 5, Op.pop] = .ok ([OpRes.pushR 7 true, OpRes.pushR 5 true, OpRes.popR 7 true], { buf := [7, 5], mask := 1, head := 2, tail := 1, pushActive := 0, popActive := 0 }) ∧
    (7 : Nat) ≠ 5 ∧
    RingBuffer.Len { buf := ([7, 5] : List Nat), mask := 1, head := 2, tail := 1, pushActive := 0, popActive := 0 } = 1 :=
  ⟨rfl, by decide, rfl⟩

theorem claim_C7_witness :
    ∃ s₁ s₂, RingBuffer.Push { buf := [0, 0], mask := 1, head := 3, tail := 3, pushActive := 0, popActive := 0 } (9 : Nat) = .ok (true, s₁) ∧ RingBuffer.Pop s₁ = .ok ((9, true), s₂) ∧ RingBuffer.Len s₂ = 0 :=
  claim_C7_roundtrip _ 9 rfl rfl (by decide) rfl (by decide)

/-- C5 (amended): for every requested capacity `1 ≤ c ≤ 2 ^ 62`,
`NewRingBuffer(c)` succeeds and `Cap()` returns
`next_power_of_two c` — the rounded value, not the requested one —
and `Cap()` is unchanged by every `Push` and `Pop`.  For
`c > 2 ^ 62` the rounded size exceeds the maximum `int` and the
constructor panics in `make` instead of creating a buffer — see the
counterexample. -/
theorem claim_C5_power_of_two_cap [Inhabited α] (c : Nat) (h1 : 1 ≤ c) (h2 : c ≤ 2 ^ 62)
    (s : RingBuffer α) (v : α) (b : Bool) (s' t' : RingBuffer α) (out : α × Bool)
    (hP : s.Push v = .ok (b, s')) (hQ : s.Pop = .ok (out, t')) :
    (∃ rb : RingBuffer α, NewRingBuffer α c = some rb ∧ rb.Cap = (next_power_of_two c : Int)) ∧
    s'.Cap = s.Cap ∧ t'.Cap = s.Cap := by
  refine ⟨?_, ?_, ?_⟩
  · have hc63 : c ≤ 2 ^ 63 := by
      have h3 : (2 : Nat) ^ 62 ≤ 2 ^ 63 := by norm_num
      omega
    have heq : nextPow2 c = 2 ^ Nat.clog 2 c := nextPow2_eq hc63
    have hclog : Nat.clog 2 c ≤ 62 := by
      have h4 := Nat.clog_mono_right 2 h2
      rwa [Nat.clog_pow 2 62 (by norm_num)] at h4
    have hle : nextPow2 c ≤ maxInt64 := by
      rw [heq, maxInt64]
      have h3 : (2 : Nat) ^ Nat.clog 2 c ≤ 2 ^ 62 := Nat.pow_le_pow_right (by norm_num) hclog
      have h5 : (2 : Nat) ^ 62 ≤ 2 ^ 63 - 1 := by norm_num
      omega
    have hcle : c ≤ maxInt64 := by
      rw [maxInt64]
      have h5 : (2 : Nat) ^ 62 ≤ 2 ^ 63 - 1 := by norm_num
      omega
    refine ⟨{ buf := List.replicate (nextPow2 c) default, mask := nextPow2 c - 1, head := 0, tail := 0, pushActive := 0, popActive := 0 }, ?_, ?_⟩
    · simp only [NewRingBuffer, if_pos hcle, if_pos hle]
    · simp [RingBuffer.Cap, next_power_of_two, heq]
  · simp only [RingBuffer.Push] at hP
    split at hP
    · exact absurd hP (by simp)
    · split at hP
      · simp only [Except.ok.injEq, Prod.mk.injEq] at hP
        obtain ⟨hb, hs⟩ := hP
        subst hs
        rfl
      · simp only [Except.ok.injEq, Prod.mk.injEq] at hP
        obtain ⟨hb, hs⟩ := hP
        subst hs
        simp [RingBuffer.Cap, List.length_set]
  · simp only [RingBuffer.Pop] at hQ
    split at hQ
    · exact absurd hQ (by simp)
    · split at hQ
      · simp only [Except.ok.injEq, Prod.mk.injEq] at hQ
        obtain ⟨hb, hs⟩ := hQ
        subst hs
        rfl
      · simp only [Except.ok.injEq, Prod.mk.injEq] at hQ
        obtain ⟨hb, hs⟩ := hQ
        subst hs
        rfl

/-- C5 counterexample: for requested capacity `2 ^ 62 + 1` the
rounding loop yields `2 ^ 63`, which exceeds the maximum `int`
(`2 ^ 63 - 1`), so `make` panics and no buffer is created — the
claim's universal range "every capacity `c ≥ 1`" fails here. -/
theorem claim_C5_counterexample : NewRingBuffer Nat (2 ^ 62 + 1) = none := rfl

theorem claim_C5_witness :
    (∃ rb : RingBuffer Nat, NewRingBuffer Nat 5 = some rb ∧ rb.Cap = (next_power_of_two 5 : Int)) ∧
    RingBuffer.Cap { buf := ([3] : List Nat), mask := 0, head := 1, tail := 0, pushActive := 0, popActive := 0 } = RingBuffer.Cap { buf := ([0] : List Nat), mask := 0, head := 0, tail := 0, pushActive := 0, popActive := 0 } ∧
    RingBuffer.Cap { buf := ([0] : List Nat), mask := 0, head := 0, tail := 0, pushActive := 0, popActive := 0 } = RingBuffer.Cap { buf := ([0] : List Nat), mask := 0, head := 0, tail := 0, pushActive := 0, popActive := 0 } :=
  claim_C5_power_of_two_cap 5 (by decide) (by decide) { buf := ([0] : List Nat), mask := 0, head := 0, tail := 0, pushActive := 0, popActive := 0 } 3 true { buf := ([3] : List Nat), mask := 0, head := 1, tail := 0, pushActive := 0, popActive := 0 } { buf := ([0] : List Nat), mask := 0, head := 0, tail := 0, pushActive := 0, popActive := 0 } (0, false) rfl rfl

/-- For a loop bound of at most `2 ^ 63` the rounding loop's
condition fails within 63 iterations. -/
theorem loopSeq_ge_of_le {u : Nat} (hu : u ≤ 2 ^ 63) : u ≤ loopSeq u 63 := by
  have hclog : Nat.clog 2 u ≤ 63 := by
    have h1 := Nat.clog_mono_right 2 hu
    rwa [Nat.clog_pow 2 63 (by norm_num)] at h1
  have hstop : u ≤ loopSeq u (Nat.clog 2 u) := by
    rw [loopSeq_eq_pow hu _ le_rfl]
    exact Nat.le_pow_clog (by norm_num) u
  rw [loopSeq_fix hstop 63 hclog]
  exact hstop

/-- For a loop bound above `2 ^ 63` the loop variable runs through
`1, 2, 4, …, 2 ^ 63`, wraps to `0`, and stays `0` forever. -/
theorem loopSeq_closed_of_large {u : Nat} (hu : 2 ^ 63 < u) :
    ∀ k, loopSeq u k = if k ≤ 63 then 2 ^ k else 0
  | 0 => by norm_num [loopSeq]
  | k + 1 => by
    rw [loopSeq_succ, loopSeq_closed_of_large hu k]
    by_cases h1 : k + 1 ≤ 63
    · have hlt : (2 : Nat) ^ k < u := by
        have h3 : (2 : Nat) ^ k < 2 ^ 63 := Nat.pow_lt_pow_right (by norm_num) (by omega)
        omega
      rw [if_pos (by omega : k ≤ 63), if_pos hlt, if_pos h1]
      have h2 : 2 * 2 ^ k = 2 ^ (k + 1) := by ring
      rw [h2, Nat.mod_eq_of_lt]
      show (2 : Nat) ^ (k + 1) < 2 ^ 64
      exact Nat.pow_lt_pow_right (by norm_num) (by omega)
    · by_cases h3 : k ≤ 63
      · have hk : k = 63 := by omega
        subst hk
        rw [if_pos h3, if_pos hu, if_neg h1]
        decide
      · rw [if_neg h3, if_neg h1, if_pos (by omega : 0 < u)]
        decide

/-- C9 (amended): the rounding loop of `NewRingBuffer` terminates for
every non-negative `size` (the loop condition fails within 63
iterations), and for every negative `size` other than `-2 ^ 63` the
converted bound `uint64(size)` exceeds `2 ^ 63`, so the loop variable
wraps to `0` and the loop never exits.  (At `size = -2 ^ 63` exactly,
`uint64(size) = 2 ^ 63` and the loop does exit — see the
counterexample.) -/
theorem claim_C9_constructor_loop :
    (∀ size : Int, 0 ≤ size → size < 2 ^ 63 →
      ∃ k, uint64OfInt size ≤ loopSeq (uint64OfInt size) k) ∧
    (∀ size : Int, -(2 ^ 63) < size → size < 0 →
      ∀ k, loopSeq (uint64OfInt size) k < uint64OfInt size) := by
  constructor
  · intro size h0 h1
    refine ⟨63, loopSeq_ge_of_le ?_⟩
    simp only [uint64OfInt, U64]
    omega
  · intro size h0 h1 k
    have hu : 2 ^ 63 < uint64OfInt size ∧ uint64OfInt size < 2 ^ 64 := by
      simp only [uint64OfInt, U64]
      omega
    rw [loopSeq_closed_of_large hu.1 k]
    split
    · have h3 : (2 : Nat) ^ k ≤ 2 ^ 63 := Nat.pow_le_pow_right (by norm_num) (by omega)
      omega
    · omega

/-- C9 counterexample: for `size = -2 ^ 63` (the minimum 64-bit
`int`), `uint64(size) = 2 ^ 63` does not exceed every 64-bit power of
two, and the rounding loop exits after 63 doublings with
`n = 2 ^ 63` — contradicting the claim that the loop never exits for
negative sizes. -/
theorem claim_C9_counterexample :
    uint64OfInt (-(2 ^ 63)) ≤ loopSeq (uint64OfInt (-(2 ^ 63))) 63 := by
  have h : uint64OfInt (-(2 ^ 63)) = 2 ^ 63 := by
    simp only [uint64OfInt, U64]
    decide
  rw [h]
  decide

theorem claim_C9_witness :
    (∃ k, uint64OfInt 6 ≤ loopSeq (uint64OfInt 6) k) ∧
    loopSeq (uint64OfInt (-5)) 100 < uint64OfInt (-5) :=
  ⟨claim_C9_constructor_loop.1 6 (by decide) (by decide),
    claim_C9_constructor_loop.2 (-5) (by decide) (by decide) 100⟩

/-- Lock-step simulation: from field-wise equal states, the guarded
buffer and the unguarded ring produce identical results and remain
field-wise equal on every call sequence. -/
theorem runS_sim :
    ∀ (ops : List (Op Int)) (s : RingBuffer Int) (r : spscRing), RelRS s r →
      ∃ res s' r', runRB s ops = .ok (res, s') ∧ runS r ops = (res, r') ∧ RelRS s' r'
  | [], s, r, h => ⟨[], s, r, rfl, rfl, h⟩
  | Op.push v :: ops, s, r, h => by
    obtain ⟨hbuf, hmask, hhead, htail, hpa, hqa⟩ := h
    have hf : ¬ s.pushActive ≠ 0 := by rw [hpa]; simp
    by_cases hc : r.buf.length ≤ sub64 r.head r.tail
    · have hcs : s.buf.length ≤ sub64 s.head s.tail := by rw [hbuf, hhead, htail]; exact hc
      have hPush : s.Push v = .ok (false, s) := by
        simp only [RingBuffer.Push, if_neg hf, if_pos hcs]
      have hPushS : r.Push v = (false, r) := by
        simp only [spscRing.Push, if_pos hc]
      obtain ⟨res, s', r', h1, h2, h3⟩ := runS_sim ops s r ⟨hbuf, hmask, hhead, htail, hpa, hqa⟩
      exact ⟨OpRes.pushR v false :: res, s', r', by simp only [runRB, hPush, h1], by simp only [runS, hPushS, h2], h3⟩
    · have hcs : ¬ s.buf.length ≤ sub64 s.head s.tail := by rw [hbuf, hhead, htail]; exact hc
      have hPush : s.Push v = .ok (true, { s with buf := s.buf.set (s.head &&& s.mask) v, head := (s.head + 1) % U64 }) := by
        simp only [RingBuffer.Push, if_neg hf, if_neg hcs]
      have hPushS : r.Push v = (true, { r with buf := r.buf.set (r.head &&& r.mask) v, head := (r.head + 1) % U64 }) := by
        simp only [spscRing.Push, if_neg hc]
      have hrel : RelRS { s with buf := s.buf.set (s.head &&& s.mask) v, head := (s.head + 1) % U64 } { r with buf := r.buf.set (r.head &&& r.mask) v, head := (r.head + 1) % U64 } :=
        ⟨by rw [hbuf, hhead, hmask], hmask, by rw [hhead], htail, hpa, hqa⟩
      obtain ⟨res, s', r', h1, h2, h3⟩ := runS_sim ops _ _ hrel
      exact ⟨OpRes.pushR v true :: res, s', r', by simp only [runRB, hPush, h1], by simp only [runS, hPushS, h2], h3⟩
  | Op.pop :: ops, s, r, h => by
    obtain ⟨hbuf, hmask, hhead, htail, hpa, hqa⟩ := h
    have hg : ¬ s.popActive ≠ 0 := by rw [hqa]; simp
    by_cases hc : r.head ≤ r.tail
    · have hcs : s.head ≤ s.tail := by rw [hhead, htail]; exact hc
      have hPop : s.Pop = .ok (((0 : Int), false), s) := by
        simp only [RingBuffer.Pop, if_neg hg, if_pos hcs]
        rfl
      have hPopS : r.Pop = ((0, false), r) := by
        simp only [spscRing.Pop, if_pos hc]
      obtain ⟨res, s', r', h1, h2, h3⟩ := runS_sim ops s r ⟨hbuf, hmask, hhead, htail, hpa, hqa⟩
      exact ⟨OpRes.popR 0 false :: res, s', r', by simp only [runRB, hPop, h1], by simp only [runS, hPopS, h2], h3⟩
    · have hcs : ¬ s.head ≤ s.tail := by rw [hhead, htail]; exact hc
      have hPop : s.Pop = .ok ((r.buf.getD (r.tail &&& r.mask) 0, true), { s with tail := (s.tail + 1) % U64 }) := by
        simp only [RingBuffer.Pop, if_neg hg, if_neg hcs]
        rw [hbuf, htail, hmask]
        rfl
      have hPopS : r.Pop = ((r.buf.getD (r.tail &&& r.mask) 0, true), { r with tail := (r.tail + 1) % U64 }) := by
        simp only [spscRing.Pop, if_neg hc]
      have hrel : RelRS { s with tail := (s.tail + 1) % U64 } { r with tail := (r.tail + 1) % U64 } :=
        ⟨hbuf, hmask, hhead, by rw [htail], hpa, hqa⟩
      obtain ⟨res, s', r', h1, h2, h3⟩ := runS_sim ops _ _ hrel
      exact ⟨OpRes.popR (r.buf.getD (r.tail &&& r.mask) 0) true :: res, s', r', by simp only [runRB, hPop, h1], by simp only [runS, hPopS, h2], h3⟩

/-- C10: under sequential use, the guarded `RingBuffer` and the
unguarded `spscRing` are observationally equivalent — constructed
with the same requested size and driven by the same call sequence,
both return identical results and keep identical `buf`, `mask`,
`head` and `tail`, the guard flags staying clear throughout. -/
theorem claim_C10_guarded_unguarded_equiv {c : Nat} {rb : RingBuffer Int} {sr : spscRing}
    (ops : List (Op Int)) (hnew : NewRingBuffer Int c = some rb) (hnewS : newSPSCRing c = some sr) :
    ∃ res s' r', runRB rb ops = .ok (res, s') ∧ runS sr ops = (res, r') ∧
      s'.buf = r'.buf ∧ s'.mask = r'.mask ∧ s'.head = r'.head ∧ s'.tail = r'.tail ∧
      s'.pushActive = 0 ∧ s'.popActive = 0 := by
  have hrel : RelRS rb sr := by
    simp only [NewRingBuffer] at hnew
    simp only [newSPSCRing] at hnewS
    split at hnew
    case isFalse => exact absurd hnew (by simp)
    case isTrue hc1 =>
      split at hnew
      case isFalse => exact absurd hnew (by simp)
      case isTrue hc2 =>
        rw [if_pos hc1, if_pos hc2] at hnewS
        have h1 := Option.some_inj.mp hnew
        have h2 := Option.some_inj.mp hnewS
        subst h1
        subst h2
        exact ⟨rfl, rfl, rfl, rfl, rfl, rfl⟩
  obtain ⟨res, s', r', h1, h2, h3⟩ := runS_sim ops rb sr hrel
  exact ⟨res, s', r', h1, h2, h3.1, h3.2.1, h3.2.2.1, h3.2.2.2.1, h3.2.2.2.2.1, h3.2.2.2.2.2⟩

theorem claim_C10_witness :
    ∃ res s' r', runRB ({ buf := [0], mask := 0, head := 0, tail := 0, pushActive := 0, popActive := 0 } : RingBuffer Int) [Op.push (3 : Int), Op.pop] = .ok (res, s') ∧ runS ({ buf := [0], mask := 0, head := 0, tail := 0 } : spscRing) [Op.push (3 : Int), Op.pop] = (res, r') ∧
      s'.buf = r'.buf ∧ s'.mask = r'.mask ∧ s'.head = r'.head ∧ s'.tail = r'.tail ∧
      s'.pushActive = 0 ∧ s'.popActive = 0 :=
  claim_C10_guarded_unguarded_equiv (c := 1) [Op.push 3, Op.pop] rfl rfl
